import Mathlib

/-!
A shallow embedding of `contexter.py`: the `Contexter` class (scope stack,
registration via `append`, activation via `__enter__`, the release loop of
`__exit__`, the `values`/`value` lookups, `__len__`) and the
`ExitStack.pop_all` method, together with proofs of the specification
claims about them.

Resource handles are modelled by the capabilities the Python code probes
with `hasattr`: an optional `__enter__` behaviour, an optional `__exit__`
behaviour and an optional `close` behaviour.  Behaviours are constant per
call: an enter step either returns a value or raises, an exit step either
returns a suppression boolean or raises, a close step either succeeds or
raises.  Exceptions are represented by `Exc`; the empty exception triple
`(None, None, None)` is represented by `none : Option Exc`.  Each operation
returns, besides its result and the updated manager, the list of calls it
made into resource code (`Event`), so that claims about which resources are
entered/released, how often, and in which order can be stated.
-/

/-- Exception values: `notAContext` is the module-level `_not_a_context`
`TypeError` raised for unsupported resources, `indexError` is Python's
`IndexError`, and `user n` is an arbitrary exception raised by resource
code. -/
inductive Exc where
  | notAContext
  | indexError
  | user (n : Nat)
deriving DecidableEq, Repr

/-- Behaviour of a handle's `__enter__` step: return a value or raise. -/
inductive EnterB where
  | ok (v : Nat)
  | raise (e : Exc)
deriving DecidableEq, Repr

/-- Behaviour of a handle's `__exit__` step: return a suppression boolean
(truthy return suppresses the pending exception) or raise. -/
inductive ExitB where
  | ret (suppress : Bool)
  | raise (e : Exc)
deriving DecidableEq, Repr

/-- Behaviour of a handle's `close` step: succeed or raise. -/
inductive CloseB where
  | ok
  | raise (e : Exc)
deriving DecidableEq, Repr

/-- A resource handle: an identity plus the three optional capabilities the
Python code probes with `hasattr` (`__enter__`, `__exit__`, `close`). -/
structure Handle where
  hid : Nat
  enterB : Option EnterB
  exitB : Option ExitB
  closeB : Option CloseB
deriving DecidableEq, Repr

/-- The produced value stored with an entry: the value returned by
`__enter__` for the managed branch of `append`, or the handle itself for
the closeable branch. -/
inductive EValue where
  | ofEnter (v : Nat)
  | ofHandle (h : Handle)
deriving DecidableEq, Repr

/-- An entry of a scope: the `(context, value)` pair appended by `append`. -/
abbrev Entry := Handle × EValue

/-- One scope: the list a single `with` level appends into. -/
abbrev Scope := List Entry

/-- The manager state: `_prepared` and `_context_stack` of `Contexter`.
The scope stack is kept in Python list order (index 0 = outermost,
last = innermost). -/
structure Contexter where
  prepared : List Handle
  context_stack : List Scope
deriving DecidableEq, Repr

/-- A call made into resource code: `__enter__`, `__exit__` (with the
exception triple it is passed) or `close`. -/
inductive Event where
  | enterCall (hid : Nat)
  | exitCall (hid : Nat) (arg : Option Exc)
  | closeCall (hid : Nat)
deriving DecidableEq, Repr

/-- The handle identity a call event refers to. -/
def Event.hid : Event → Nat
  | .enterCall i => i
  | .exitCall i _ => i
  | .closeCall i => i

instance {ε α : Type} [DecidableEq ε] [DecidableEq α] : DecidableEq (Except ε α)
  | .error x, .error y =>
    if h : x = y then .isTrue (congrArg Except.error h)
    else .isFalse fun hc => h (Except.error.inj hc)
  | .error _, .ok _ => .isFalse fun hc => Except.noConfusion hc
  | .ok _, .error _ => .isFalse fun hc => Except.noConfusion hc
  | .ok x, .ok y =>
    if h : x = y then .isTrue (congrArg Except.ok h)
    else .isFalse fun hc => h (Except.ok.inj hc)

/-- Outcome of one manager operation: the calls made into resource code,
the returned value or raised exception, and the manager state afterwards. -/
structure OpResult (α : Type) where
  events : List Event
  result : Except Exc α
  state : Contexter
deriving DecidableEq, Repr

/-- Python list indexing (`lst[i]` for an integer `i`): nonnegative indices
must be below the length, negative indices count from the end. -/
def pyIdx (len : Nat) (i : Int) : Option Nat :=
  if 0 ≤ i then
    if i.toNat < len then some i.toNat else none
  else
    if 0 ≤ (len : Int) + i then some ((len : Int) + i).toNat else none

/-- Python point lookup `xs[i]`, `none` meaning `IndexError`. -/
def pyGet {α : Type} (xs : List α) (i : Int) : Option α :=
  match pyIdx xs.length i with
  | none => none
  | some k => xs[k]?

/-- Clamping of one slice bound to `[0, n]`, as Python does for slices with
step 1. -/
def sliceBound (n : Nat) (i : Int) : Nat :=
  if 0 ≤ i then min i.toNat n else ((n : Int) + i).toNat

/-- Python slice lookup `xs[start:stop]` (step 1); a missing bound defaults
to the corresponding end of the list.  Slices never raise. -/
def pySlice {α : Type} (xs : List α) (start stop : Option Int) : List α :=
  let a := match start with
    | none => 0
    | some i => sliceBound xs.length i
  let b := match stop with
    | none => xs.length
    | some i => sliceBound xs.length i
  (xs.take b).drop a

/-- `self._context_stack[-1].append(en)`: append an entry to the innermost
scope; `none` when the stack is empty (`IndexError`). -/
def pushLast (st : List Scope) (en : Entry) : Option (List Scope) :=
  match st.getLast? with
  | none => none
  | some s => some (st.dropLast ++ [s ++ [en]])

/-- `Contexter.append` (also `__lshift__`): if the handle has both
`__enter__` and `__exit__`, call `__enter__` first (an exception there
propagates before any state change) and append `(context, value)` to the
innermost scope; otherwise, if it has `close`, append `(context, context)`;
otherwise raise `_not_a_context`. -/
def Contexter.append (c : Contexter) (h : Handle) : OpResult EValue :=
  match h.enterB, h.exitB with
  | some (.raise e), some _ => ⟨[.enterCall h.hid], .error e, c⟩
  | some (.ok v), some _ =>
    match pushLast c.context_stack (h, .ofEnter v) with
    | none => ⟨[.enterCall h.hid], .error .indexError, c⟩
    | some st => ⟨[.enterCall h.hid], .ok (.ofEnter v), ⟨c.prepared, st⟩⟩
  | _, _ =>
    match h.closeB with
    | some _ =>
      match pushLast c.context_stack (h, .ofHandle h) with
      | none => ⟨[], .error .indexError, c⟩
      | some st => ⟨[], .ok (.ofHandle h), ⟨c.prepared, st⟩⟩
    | none => ⟨[], .error .notAContext, c⟩

/-- The loop `for context in contexts: self << context` used by
`__call__` and by the prepared-list drain in `__enter__`; stops at the
first exception, which propagates. -/
def registerMany (c : Contexter) : List Handle → OpResult Unit
  | [] => ⟨[], .ok (), c⟩
  | h :: rest =>
    let r := c.append h
    match r.result with
    | .error e => ⟨r.events, .error e, r.state⟩
    | .ok _ =>
      let r2 := registerMany r.state rest
      ⟨r.events ++ r2.events, r2.result, r2.state⟩

/-- `Contexter.__enter__`: push a fresh scope; then, when the resulting
stack equals `[[]]` (that is, whenever the stack was empty before the
push), drain the prepared list through `append`.  The prepared list itself
is never cleared. -/
def Contexter.enter (c : Contexter) : OpResult Unit :=
  let st := c.context_stack ++ [[]]
  if st = [([] : Scope)] then registerMany ⟨c.prepared, st⟩ c.prepared
  else ⟨[], .ok (), ⟨c.prepared, st⟩⟩

/-- One iteration of the `__exit__` loop, acting on the pending exception
triple `exc`: an `__exit__` capability is tried first (a truthy return
clears `exc`), else `close`, else the raised `_not_a_context` is caught by
the bare `except:`; any exception raised by the step replaces `exc`. -/
def stepPending (pending : Option Exc) (h : Handle) : Option Exc :=
  match h.exitB with
  | some (.ret b) => if b then none else pending
  | some (.raise e) => some e
  | none =>
    match h.closeB with
    | some .ok => pending
    | some (.raise e) => some e
    | none => some .notAContext

/-- The call into resource code made by one iteration of the `__exit__`
loop: `__exit__(*exc)` when the handle has `__exit__`, else `close()`,
else no call at all. -/
def stepEvents (pending : Option Exc) (h : Handle) : List Event :=
  match h.exitB with
  | some _ => [.exitCall h.hid pending]
  | none =>
    match h.closeB with
    | some _ => [.closeCall h.hid]
    | none => []

/-- The `__exit__` loop over `contexts[::-1]` (the argument list is already
in processing order): returns the calls made and the final pending
exception triple. -/
def releaseLoop (pending : Option Exc) : List Entry → List Event × Option Exc
  | [] => ([], pending)
  | (h, _) :: rest =>
    let r := releaseLoop (stepPending pending h) rest
    (stepEvents pending h ++ r.1, r.2)

/-- `Contexter.__exit__`: pop the innermost scope (IndexError when the
stack is empty), release its entries in reverse registration order, and
re-raise the final pending exception if any. -/
def Contexter.exit (c : Contexter) (incoming : Option Exc) : OpResult Unit :=
  match c.context_stack.getLast? with
  | none => ⟨[], .error .indexError, c⟩
  | some s =>
    let r := releaseLoop incoming s.reverse
    ⟨r.1,
      (match r.2 with
       | none => .ok ()
       | some e => .error e),
      ⟨c.prepared, c.context_stack.dropLast⟩⟩

/-- `Contexter.values`: the produced values of the selected scope in
registration order; `IndexError` for a scope index selecting no scope. -/
def Contexter.values (c : Contexter) (stack : Int) : Except Exc (List EValue) :=
  match pyGet c.context_stack stack with
  | none => .error .indexError
  | some s => .ok (s.map fun en => en.2)

/-- The index argument of `Contexter.value`: a point index or a slice. -/
inductive PyIndex where
  | point (i : Int)
  | slice (start stop : Option Int)
deriving DecidableEq, Repr

/-- Result of `Contexter.value`: one value for a point index, an ordered
list for a slice. -/
inductive ValueRes where
  | one (v : EValue)
  | many (vs : List EValue)
deriving DecidableEq, Repr

/-- `Contexter.value` (also `__getitem__`): look up the selected scope,
then index or slice into it, projecting to the produced values. -/
def Contexter.value (c : Contexter) (index : PyIndex) (stack : Int) :
    Except Exc ValueRes :=
  match pyGet c.context_stack stack with
  | none => .error .indexError
  | some s =>
    match index with
    | .slice a b => .ok (.many ((pySlice s a b).map fun en => en.2))
    | .point i =>
      match pyGet s i with
      | none => .error .indexError
      | some en => .ok (.one en.2)

/-- `Contexter.__len__`: the number of entries of the innermost scope. -/
def Contexter.len (c : Contexter) : Except Exc Nat :=
  match c.context_stack.getLast? with
  | none => .error .indexError
  | some s => .ok s.length

/-- What `ExitStack.pop_all` leaves behind: `returned` is the value the
Python function actually returns to its caller, `built` is the fresh
`ExitStack` instance constructed inside the method body, `state` is the
original manager afterwards. -/
structure PopAllOut where
  returned : Option Contexter
  built : Contexter
  state : Contexter
deriving DecidableEq, Repr

/-- `ExitStack.pop_all`: construct a fresh `ExitStack`, move the popped
innermost scope into it, push a fresh empty scope onto the original.  The
method body has no `return` statement, so the Python function returns
`None`; the constructed instance is exposed here as `built`. -/
def Contexter.pop_all (c : Contexter) : Except Exc PopAllOut :=
  match c.context_stack.getLast? with
  | none => .error .indexError
  | some s =>
    .ok ⟨none, ⟨[], [s]⟩, ⟨c.prepared, c.context_stack.dropLast ++ [[]]⟩⟩

/-- A handle `append` accepts without raising: either the managed branch
with a non-raising `__enter__`, or the closeable branch. -/
def registrable (h : Handle) : Bool :=
  match h.enterB, h.exitB with
  | some (.ok _), some _ => true
  | some (.raise _), some _ => false
  | _, _ => h.closeB.isSome

/-- The entry `append` pushes for a registrable handle. -/
def entryOf (h : Handle) : Entry :=
  match h.enterB, h.exitB with
  | some (.ok v), some _ => (h, .ofEnter v)
  | _, _ => (h, .ofHandle h)

/-- The enter calls `append` makes for one handle: exactly one for the
managed branch, none otherwise. -/
def enterEvents (h : Handle) : List Event :=
  match h.enterB, h.exitB with
  | some _, some _ => [.enterCall h.hid]
  | _, _ => []

/-- The enter calls of registering a whole list of handles in order. -/
def enterEventsAll : List Handle → List Event
  | [] => []
  | h :: rest => enterEvents h ++ enterEventsAll rest

/-- A handle the release loop makes a call for: it has `__exit__` or
`close`.  Every entry produced by `append` satisfies this. -/
def hasRelease (h : Handle) : Bool := h.exitB.isSome || h.closeB.isSome

/-- The exception one release step raises, if any (independent of the
pending state): a raising `__exit__`, a raising `close`, or the caught
`_not_a_context` of the final `else` branch. -/
def stepRaises (h : Handle) : Option Exc :=
  match h.exitB with
  | some (.raise e) => some e
  | some (.ret _) => none
  | none =>
    match h.closeB with
    | some (.raise e) => some e
    | some .ok => none
    | none => some .notAContext

example :
    (Contexter.enter ⟨[⟨1, some (.ok 10), some (.ret false), none⟩], []⟩).events
      = [.enterCall 1] := by decide

example :
    (Contexter.exit ⟨[], [[(⟨1, none, none, some .ok⟩, .ofHandle ⟨1, none, none, some .ok⟩)]]⟩ none).result
      = .ok () := by decide

/-! ### Helper lemmas about the release loop -/

/-- The final pending exception of the release loop is a left fold of
`stepPending` over the processed entries. -/
theorem releaseLoop_snd (p : Option Exc) (l : List Entry) :
    (releaseLoop p l).2 = l.foldl (fun q en => stepPending q en.1) p := by
  induction l generalizing p with
  | nil => rfl
  | cons x rest ih =>
    obtain ⟨h, v⟩ := x
    simp [releaseLoop, ih]

/-- A release step for a handle with `__exit__` or `close` makes exactly
one call, to that handle. -/
theorem stepEvents_hid (p : Option Exc) (h : Handle) (hr : hasRelease h = true) :
    (stepEvents p h).map Event.hid = [h.hid] := by
  obtain ⟨i, en, ex, cl⟩ := h
  cases ex <;> cases cl <;> simp_all [stepEvents, hasRelease, Event.hid]

/-- When every processed entry has a release capability, the release loop
calls each entry exactly once, in processing order. -/
theorem releaseLoop_hids (p : Option Exc) (l : List Entry)
    (hl : ∀ en ∈ l, hasRelease en.1 = true) :
    (releaseLoop p l).1.map Event.hid = l.map fun en => en.1.hid := by
  induction l generalizing p with
  | nil => rfl
  | cons x rest ih =>
    obtain ⟨h, v⟩ := x
    have h1 : hasRelease h = true := hl (h, v) (List.mem_cons_self _ _)
    have h2 := ih (stepPending p h) fun en hen => hl en (List.mem_cons_of_mem _ hen)
    simp [releaseLoop, stepEvents_hid p h h1, h2]

/-- A raising release step replaces whatever exception was pending. -/
theorem stepPending_raise (p : Option Exc) (h : Handle) (e : Exc)
    (hr : stepRaises h = some e) : stepPending p h = some e := by
  obtain ⟨i, en, ex, cl⟩ := h
  cases ex with
  | none =>
    cases cl with
    | none => simp_all [stepRaises, stepPending]
    | some cb => cases cb <;> simp_all [stepRaises, stepPending]
  | some eb => cases eb <;> simp_all [stepRaises, stepPending]

/-- A release step that neither raises nor returns a truthy suppression
value keeps the pending exception. -/
theorem stepPending_keep (p : Option Exc) (h : Handle)
    (h1 : stepRaises h = none) (h2 : h.exitB ≠ some (.ret true)) :
    stepPending p h = p := by
  obtain ⟨i, en, ex, cl⟩ := h
  cases ex with
  | none =>
    cases cl with
    | none => simp_all [stepRaises, stepPending]
    | some cb => cases cb <;> simp_all [stepRaises, stepPending]
  | some eb =>
    cases eb with
    | raise e => simp_all [stepRaises, stepPending]
    | ret b => cases b <;> simp_all [stepPending]

/-- A run of release steps that neither raise nor suppress keeps the
pending exception. -/
theorem foldl_keep (p : Option Exc) (l : List Entry)
    (hl : ∀ en ∈ l, stepRaises en.1 = none ∧ en.1.exitB ≠ some (.ret true)) :
    l.foldl (fun q en => stepPending q en.1) p = p := by
  induction l with
  | nil => rfl
  | cons x rest ih =>
    have hx := hl x (List.mem_cons_self _ _)
    have h2 := ih fun en hen => hl en (List.mem_cons_of_mem _ hen)
    simp [stepPending_keep p x.1 hx.1 hx.2, h2]

/-- A non-raising release step keeps an empty pending state empty (also
when it is a suppressor: suppression of nothing is a no-op). -/
theorem stepPending_none (h : Handle) (h1 : stepRaises h = none) :
    stepPending none h = none := by
  obtain ⟨i, en, ex, cl⟩ := h
  cases ex with
  | none =>
    cases cl with
    | none => simp_all [stepRaises, stepPending]
    | some cb => cases cb <;> simp_all [stepRaises, stepPending]
  | some eb =>
    cases eb with
    | raise e => simp_all [stepRaises, stepPending]
    | ret b => cases b <;> simp_all [stepPending]

/-- A run of non-raising release steps keeps an empty pending state. -/
theorem foldl_none (l : List Entry)
    (hl : ∀ en ∈ l, stepRaises en.1 = none) :
    l.foldl (fun q en => stepPending q en.1) none = none := by
  induction l with
  | nil => rfl
  | cons x rest ih =>
    have hx := hl x (List.mem_cons_self _ _)
    have h2 := ih fun en hen => hl en (List.mem_cons_of_mem _ hen)
    simp [stepPending_none x.1 hx, h2]

/-- After the release step at position `i` raises `e`, the pending state
is `e` no matter what was pending before. -/
theorem foldl_take_raise (p : Option Exc) (l : List Entry) (i : Nat) (en : Entry) (e : Exc)
    (hi : l[i]? = some en) (hr : stepRaises en.1 = some e) :
    (l.take (i+1)).foldl (fun q en => stepPending q en.1) p = some e := by
  rw [List.take_succ, hi]
  simp [List.foldl_append, stepPending_raise _ en.1 e hr]

/-- If the step at position `i` raises `e` and no later step raises or
suppresses, the whole loop ends with `e` pending. -/
theorem foldl_last_raise (p : Option Exc) (l : List Entry) (i : Nat) (en : Entry) (e : Exc)
    (hi : l[i]? = some en) (hr : stepRaises en.1 = some e)
    (hafter : ∀ x ∈ l.drop (i+1), stepRaises x.1 = none ∧ x.1.exitB ≠ some (.ret true)) :
    l.foldl (fun q en => stepPending q en.1) p = some e := by
  have hsplit : l.take (i+1) ++ l.drop (i+1) = l := List.take_append_drop _ _
  calc l.foldl (fun q en => stepPending q en.1) p
      = (l.take (i+1) ++ l.drop (i+1)).foldl (fun q en => stepPending q en.1) p := by
        rw [hsplit]
    _ = (l.drop (i+1)).foldl (fun q en => stepPending q en.1)
          ((l.take (i+1)).foldl (fun q en => stepPending q en.1) p) := by
        rw [List.foldl_append]
    _ = some e := by
        rw [foldl_take_raise p l i en e hi hr]
        exact foldl_keep _ _ hafter

/-- After the suppressing step at position `i`, the pending state is
empty no matter what was pending before. -/
theorem foldl_take_suppress (p : Option Exc) (l : List Entry) (i : Nat) (en : Entry)
    (hi : l[i]? = some en) (hsup : en.1.exitB = some (.ret true)) :
    (l.take (i+1)).foldl (fun q en => stepPending q en.1) p = none := by
  rw [List.take_succ, hi]
  simp [List.foldl_append, stepPending, hsup]

/-- After a suppressing step at position `i`, if no later step raises,
every prefix of the loop extending past `i` ends with nothing pending. -/
theorem foldl_take_after_suppress (p : Option Exc) (l : List Entry) (i j : Nat) (en : Entry)
    (hi : l[i]? = some en) (hsup : en.1.exitB = some (.ret true))
    (hafter : ∀ x ∈ l.drop (i+1), stepRaises x.1 = none)
    (hj : i < j) :
    (l.take j).foldl (fun q en => stepPending q en.1) p = none := by
  have hj2 : j = (i+1) + (j - (i+1)) := by omega
  rw [hj2, List.take_add, List.foldl_append,
    foldl_take_suppress p l i en hi hsup]
  exact foldl_none _ fun x hx => hafter x (List.take_subset _ _ hx)

/-! ### Helper lemmas about registration and activation -/

/-- Appending to the innermost scope of a non-empty stack. -/
theorem pushLast_concat (st : List Scope) (s : Scope) (en : Entry) :
    pushLast (st ++ [s]) en = some (st ++ [s ++ [en]]) := by
  simp [pushLast, List.getLast?_concat, List.dropLast_concat]

/-- The entry pushed by `append` carries the handle itself. -/
theorem entryOf_fst (h : Handle) : (entryOf h).1 = h := by
  obtain ⟨i, en, ex, cl⟩ := h
  cases en with
  | none => cases ex <;> rfl
  | some eb => cases eb <;> cases ex <;> rfl

/-- Every handle `append` accepts has a release capability. -/
theorem registrable_hasRelease (h : Handle) (hr : registrable h = true) :
    hasRelease h = true := by
  obtain ⟨i, en, ex, cl⟩ := h
  cases en with
  | none => cases ex <;> cases cl <;> simp_all [registrable, hasRelease]
  | some eb => cases eb <;> cases ex <;> cases cl <;> simp_all [registrable, hasRelease]

/-- `append` on an active manager and an acceptable handle: one entry goes
to the end of the innermost scope, everything else is unchanged. -/
theorem append_ok (prep : List Handle) (st : List Scope) (s : Scope) (h : Handle)
    (hreg : registrable h = true) :
    Contexter.append ⟨prep, st ++ [s]⟩ h =
      ⟨enterEvents h, .ok (entryOf h).2, ⟨prep, st ++ [s ++ [entryOf h]]⟩⟩ := by
  obtain ⟨i, en, ex, cl⟩ := h
  cases en with
  | none =>
    cases cl with
    | none => simp_all [registrable]
    | some cb =>
      cases ex <;>
        simp [Contexter.append, pushLast_concat, entryOf, enterEvents]
  | some eb =>
    cases eb with
    | ok v =>
      cases ex with
      | none =>
        cases cl with
        | none => simp_all [registrable]
        | some cb => simp [Contexter.append, pushLast_concat, entryOf, enterEvents]
      | some _ => simp [Contexter.append, pushLast_concat, entryOf, enterEvents]
    | raise e =>
      cases ex with
      | none =>
        cases cl with
        | none => simp_all [registrable]
        | some cb => simp [Contexter.append, pushLast_concat, entryOf, enterEvents]
      | some _ => simp_all [registrable]

/-- Registering a list of acceptable handles on an active manager: their
entries go to the end of the innermost scope in registration order, their
managed members are entered in order, nothing else changes. -/
theorem registerMany_ok (prep : List Handle) (st : List Scope) (s : Scope)
    (hs : List Handle) (hreg : ∀ h ∈ hs, registrable h = true) :
    registerMany ⟨prep, st ++ [s]⟩ hs =
      ⟨enterEventsAll hs, .ok (), ⟨prep, st ++ [s ++ hs.map entryOf]⟩⟩ := by
  induction hs generalizing s with
  | nil => simp [registerMany, enterEventsAll]
  | cons h rest ih =>
    have h1 := append_ok prep st s h (hreg h (List.mem_cons_self _ _))
    have h2 := ih (s ++ [entryOf h]) fun x hx => hreg x (List.mem_cons_of_mem _ hx)
    simp [registerMany, h1, h2, enterEventsAll]

/-- `__exit__` on an active manager: pop the innermost scope and run the
release loop on its reverse. -/
theorem exit_concat (prep : List Handle) (st : List Scope) (s : Scope) (inc : Option Exc) :
    Contexter.exit ⟨prep, st ++ [s]⟩ inc =
      ⟨(releaseLoop inc s.reverse).1,
       (match (releaseLoop inc s.reverse).2 with
        | none => .ok ()
        | some e => .error e),
       ⟨prep, st⟩⟩ := by
  simp [Contexter.exit, List.getLast?_concat, List.dropLast_concat]

/-- Activating an already-active manager pushes an empty scope and makes
no calls into resource code. -/
theorem enter_nested (prep : List Handle) (st : List Scope) (hst : st ≠ []) :
    Contexter.enter ⟨prep, st⟩ = ⟨[], .ok (), ⟨prep, st ++ [[]]⟩⟩ := by
  have hne : st ++ [([] : Scope)] ≠ [([] : Scope)] := by
    intro hc
    have := congrArg List.length hc
    simp at this
    exact hst this
  simp [Contexter.enter, hne]

/-- Activating an inactive manager pushes one empty scope and drains the
prepared list through `append` — on every such activation, not only the
first of the manager's lifetime. -/
theorem enter_outermost (prep : List Handle) :
    Contexter.enter ⟨prep, []⟩ = registerMany ⟨prep, [([] : Scope)]⟩ prep := by
  simp [Contexter.enter]

/-! ### Sample handles for the concrete instantiations -/

/-- A managed handle: enter returns `11`, exit returns falsy. -/
def hA : Handle := ⟨1, some (.ok 11), some (.ret false), none⟩

/-- A managed handle: enter returns `12`, exit returns falsy. -/
def hB : Handle := ⟨2, some (.ok 12), some (.ret false), none⟩

/-- A close-only handle whose close succeeds. -/
def hCl : Handle := ⟨3, none, none, some .ok⟩

/-- A managed handle whose exit returns a truthy suppression value. -/
def hSup : Handle := ⟨4, some (.ok 14), some (.ret true), none⟩

/-- A managed handle whose exit raises `user 1`. -/
def hR1 : Handle := ⟨5, some (.ok 15), some (.raise (.user 1)), none⟩

/-- A managed handle whose exit raises `user 2`. -/
def hR2 : Handle := ⟨6, some (.ok 16), some (.raise (.user 2)), none⟩

/-- An object with none of the three capabilities. -/
def hNone : Handle := ⟨7, none, none, none⟩

/-- A managed handle whose enter raises `user 9`. -/
def hER : Handle := ⟨8, some (.raise (.user 9)), some (.ret false), none⟩

/-! ### The claims -/

/-- Claim C1 fails on the code as stated: a manager constructed with the
non-empty prepared list `[hA]` enters `hA` during its first activation;
after a full deactivation the scope stack is back to empty, and
re-activating the manager drains the prepared list (which `__enter__`
never clears) again, entering `hA` a second time in the manager's
lifetime. -/
theorem C1_cex :
    (Contexter.enter ⟨[hA], []⟩).events = [.enterCall 1] ∧
    ((Contexter.enter ⟨[hA], []⟩).state.exit none).state.context_stack = [] ∧
    (((Contexter.enter ⟨[hA], []⟩).state.exit none).state.enter).events
      = [.enterCall 1] := by decide

/-- Claim C1 (amended): the prepared list is entered at every outermost
activation (whenever the scope stack goes from empty to one scope), not
only at the very first activation of the manager's lifetime: activating an
inactive manager with acceptable prepared handles enters them in order,
full deactivation returns the manager exactly to its initial state, and
the next activation enters the prepared handles again; only nested
re-activation skips the prepared list. -/
theorem C1_thm (prep : List Handle) (inc : Option Exc)
    (hreg : ∀ h ∈ prep, registrable h = true) :
    (Contexter.enter ⟨prep, []⟩).events = enterEventsAll prep ∧
    ((Contexter.enter ⟨prep, []⟩).state.exit inc).state = ⟨prep, []⟩ ∧
    (((Contexter.enter ⟨prep, []⟩).state.exit inc).state.enter).events
      = enterEventsAll prep := by
  have h1 : Contexter.enter ⟨prep, []⟩
      = ⟨enterEventsAll prep, .ok (), ⟨prep, [prep.map entryOf]⟩⟩ := by
    rw [enter_outermost]
    simpa using registerMany_ok prep [] [] prep hreg
  have h2 : ((⟨prep, [prep.map entryOf]⟩ : Contexter).exit inc).state = ⟨prep, []⟩ := by
    simpa using congrArg OpResult.state (exit_concat prep [] (prep.map entryOf) inc)
  refine ⟨by rw [h1], ?_, ?_⟩
  · simp only [h1]
    exact h2
  · simp only [h1]
    have h3 : ((⟨prep, [prep.map entryOf]⟩ : Contexter).exit inc).state.enter.events
        = enterEventsAll prep := by
      rw [h2, h1]
    exact h3

/-- Closed instantiation of `C1_thm` at the prepared list `[hCl]`. -/
theorem C1_wit :
    (Contexter.enter ⟨[hCl], []⟩).events = enterEventsAll [hCl] :=
  (C1_thm [hCl] none (by decide)).1

/-- Claim C2, evaluated at an active manager with two stacked scopes:
`pop_all` transfers the innermost scope to a freshly constructed manager
(`built`) which is immediately active with exactly that one scope in
original order, and leaves the original with a fresh empty innermost scope
at unchanged activation depth — but the method body has no `return`
statement, so the caller receives `None` (`returned = none`) instead of
the new manager. -/
theorem C2_thm :
    Contexter.pop_all
        ⟨[], [[(hA, .ofEnter 11)], [(hB, .ofEnter 12), (hCl, .ofHandle hCl)]]⟩
      = .ok ⟨none,
             ⟨[], [[(hB, .ofEnter 12), (hCl, .ofHandle hCl)]]⟩,
             ⟨[], [[(hA, .ofEnter 11)], []]⟩⟩ := by decide

/-- Claim C6: deactivating a scope makes exactly one release call per
entry, in reverse registration order, whatever the incoming exception and
whatever each release step does (raise or not): an error in one entry's
release never prevents the release of the remaining entries. -/
theorem C6_thm (prep : List Handle) (st : List Scope) (s : Scope) (inc : Option Exc)
    (hcap : ∀ en ∈ s, hasRelease en.1 = true) :
    (Contexter.exit ⟨prep, st ++ [s]⟩ inc).events.map Event.hid
      = (s.reverse).map fun en => en.1.hid := by
  rw [exit_concat]
  exact releaseLoop_hids inc s.reverse fun en hen => hcap en (List.mem_reverse.mp hen)

/-- Closed instantiation of `C6_thm`: two raising releases and a closeable
in between are all released exactly once, in reverse order. -/
theorem C6_wit :
    (Contexter.exit
        ⟨[], [[(hR1, .ofEnter 15), (hCl, .ofHandle hCl), (hR2, .ofEnter 16)]]⟩
        (some (.user 7))).events.map Event.hid = [6, 3, 5] :=
  C6_thm [] [] [(hR1, .ofEnter 15), (hCl, .ofHandle hCl), (hR2, .ofEnter 16)]
    (some (.user 7)) (by decide)

/-- Claim C8: registering an object with neither the enter+exit capability
pair nor a close capability on an active manager raises the
unsupported-resource error (`_not_a_context`) immediately, makes no call
into resource code, and leaves the manager — in particular the entry count
of the active scope — unchanged. -/
theorem C8_thm (c : Contexter) (h : Handle)
    (hact : c.context_stack ≠ [])
    (hpair : ¬(h.enterB.isSome = true ∧ h.exitB.isSome = true))
    (hclose : h.closeB = none) :
    c.append h = ⟨[], .error .notAContext, c⟩ ∧
    (c.append h).state.len = c.len := by
  have h1 : c.append h = ⟨[], .error .notAContext, c⟩ := by
    obtain ⟨i, en, ex, cl⟩ := h
    cases cl with
    | some cb => simp at hclose
    | none =>
      cases en with
      | none => cases ex <;> simp [Contexter.append]
      | some eb => cases eb <;> cases ex <;> simp_all [Contexter.append]
  exact ⟨h1, by rw [h1]⟩

/-- Closed instantiation of `C8_thm` at `hNone` on an active manager. -/
theorem C8_wit :
    Contexter.append ⟨[], [[]]⟩ hNone = ⟨[], .error .notAContext, ⟨[], [[]]⟩⟩ :=
  (C8_thm ⟨[], [[]]⟩ hNone (by decide) (by decide) rfl).1

/-- Claim C10: on an active manager, if a handle exposing the enter+exit
pair raises from its enter step during `append`, the exception propagates
and the manager is completely unchanged: no entry is added to any scope
and the scope stack keeps its previous contents. -/
theorem C10_thm (c : Contexter) (h : Handle) (e : Exc) (eb : ExitB)
    (hact : c.context_stack ≠ [])
    (henter : h.enterB = some (.raise e)) (hexit : h.exitB = some eb) :
    c.append h = ⟨[.enterCall h.hid], .error e, c⟩ := by
  simp [Contexter.append, henter, hexit]

/-- Closed instantiation of `C10_thm` at `hER` on an active manager. -/
theorem C10_wit :
    Contexter.append ⟨[], [[(hA, .ofEnter 11)]]⟩ hER
      = ⟨[.enterCall 8], .error (.user 9), ⟨[], [[(hA, .ofEnter 11)]]⟩⟩ :=
  C10_thm ⟨[], [[(hA, .ofEnter 11)]]⟩ hER (.user 9) (.ret false) (by decide) rfl rfl

/-- Claim C4: for any manager whose innermost scope starts empty, any list
of acceptable handles registered into it (all registrations succeed) and
any incoming exception, deactivation calls the registered resources'
release operations in exactly the reverse of registration order, for all
lengths including zero. -/
theorem C4_thm (prep : List Handle) (st : List Scope) (hs : List Handle) (inc : Option Exc)
    (hreg : ∀ h ∈ hs, registrable h = true) :
    (registerMany ⟨prep, st ++ [[]]⟩ hs).result = .ok () ∧
    ((registerMany ⟨prep, st ++ [[]]⟩ hs).state.exit inc).events.map Event.hid
      = (hs.map Handle.hid).reverse := by
  have h1 := registerMany_ok prep st [] hs hreg
  have h3 : ∀ en ∈ (hs.map entryOf).reverse, hasRelease en.1 = true := by
    intro en hen
    rw [List.mem_reverse] at hen
    obtain ⟨h, hh, rfl⟩ := List.mem_map.mp hen
    rw [entryOf_fst]
    exact registrable_hasRelease h (hreg h hh)
  constructor
  · rw [h1]
  · have hstate : (registerMany ⟨prep, st ++ [[]]⟩ hs).state
        = ⟨prep, st ++ [hs.map entryOf]⟩ := by
      rw [h1]
      simp
    rw [hstate]
    calc ((⟨prep, st ++ [hs.map entryOf]⟩ : Contexter).exit inc).events.map Event.hid
        = (releaseLoop inc (hs.map entryOf).reverse).1.map Event.hid := by
          rw [exit_concat]
      _ = ((hs.map entryOf).reverse).map (fun en => en.1.hid) :=
          releaseLoop_hids inc _ h3
      _ = (hs.map Handle.hid).reverse := by
          simp [List.map_reverse, List.map_map, Function.comp_def, entryOf_fst]

/-- Closed instantiation of `C4_thm`: registering `[hA, hB, hCl]` and
deactivating releases them as `[3, 2, 1]`. -/
theorem C4_wit :
    (registerMany ⟨[], [[]]⟩ [hA, hB, hCl]).result = .ok () ∧
    ((registerMany ⟨[], [[]]⟩ [hA, hB, hCl]).state.exit none).events.map Event.hid
      = [3, 2, 1] :=
  C4_thm [] [] [hA, hB, hCl] none (by decide)

/-- Claim C5: on an already-active manager, a nested activation pushes an
isolated scope: it makes no calls, registering handles there succeeds, the
inner deactivation releases exactly those handles in reverse order and no
others, and it returns the manager exactly to its pre-nesting state — so
every outer-scope entry is still held, unchanged, and is released only by
the outer deactivation. -/
theorem C5_thm (c : Contexter) (hs : List Handle) (inc : Option Exc)
    (hact : c.context_stack ≠ [])
    (hreg : ∀ h ∈ hs, registrable h = true) :
    (Contexter.enter c).events = [] ∧
    (registerMany (Contexter.enter c).state hs).result = .ok () ∧
    ((registerMany (Contexter.enter c).state hs).state.exit inc).events.map Event.hid
      = (hs.map Handle.hid).reverse ∧
    ((registerMany (Contexter.enter c).state hs).state.exit inc).state = c := by
  obtain ⟨prep, st⟩ := c
  have he := enter_nested prep st hact
  have h1 := registerMany_ok prep st [] hs hreg
  have h3 : ∀ en ∈ (hs.map entryOf).reverse, hasRelease en.1 = true := by
    intro en hen
    rw [List.mem_reverse] at hen
    obtain ⟨h, hh, rfl⟩ := List.mem_map.mp hen
    rw [entryOf_fst]
    exact registrable_hasRelease h (hreg h hh)
  have hstate : (registerMany (Contexter.enter ⟨prep, st⟩).state hs).state
      = ⟨prep, st ++ [hs.map entryOf]⟩ := by
    rw [he]
    show (registerMany ⟨prep, st ++ [[]]⟩ hs).state = _
    rw [h1]
    simp
  refine ⟨by rw [he], ?_, ?_, ?_⟩
  · rw [he]
    show (registerMany ⟨prep, st ++ [[]]⟩ hs).result = .ok ()
    rw [h1]
  · rw [hstate]
    calc ((⟨prep, st ++ [hs.map entryOf]⟩ : Contexter).exit inc).events.map Event.hid
        = (releaseLoop inc (hs.map entryOf).reverse).1.map Event.hid := by
          rw [exit_concat]
      _ = ((hs.map entryOf).reverse).map (fun en => en.1.hid) :=
          releaseLoop_hids inc _ h3
      _ = (hs.map Handle.hid).reverse := by
          simp [List.map_reverse, List.map_map, Function.comp_def, entryOf_fst]
  · rw [hstate]
    exact congrArg OpResult.state (exit_concat prep st (hs.map entryOf) inc)

/-- Closed instantiation of `C5_thm`: a manager holding `hA` in its outer
scope, nested-activated and given `hB`, releases only `hB` on the inner
deactivation and is back to its outer state afterwards. -/
theorem C5_wit :
    ((registerMany (Contexter.enter ⟨[], [[(hA, .ofEnter 11)]]⟩).state [hB]).state.exit
        none).events.map Event.hid = [2] ∧
    ((registerMany (Contexter.enter ⟨[], [[(hA, .ofEnter 11)]]⟩).state [hB]).state.exit
        none).state = ⟨[], [[(hA, .ofEnter 11)]]⟩ :=
  ⟨(C5_thm ⟨[], [[(hA, .ofEnter 11)]]⟩ [hB] none (by decide) (by decide)).2.2.1,
   (C5_thm ⟨[], [[(hA, .ofEnter 11)]]⟩ [hB] none (by decide) (by decide)).2.2.2⟩

/-- Claim C3 fails as stated: with `hSup` (whose exit returns a truthy
suppression value) registered first and `hR2` (whose exit raises `user 2`)
registered second, deactivation first calls `hR2`, whose error becomes
pending, and then `hSup`, which is passed the pending `user 2` and
suppresses it — so nothing is propagated, although the last release step
that raised raised `user 2`. -/
theorem C3_cex :
    (Contexter.exit ⟨[], [[(hSup, .ofEnter 14), (hR2, .ofEnter 16)]]⟩ none).events
      = [.exitCall 6 none, .exitCall 4 (some (.user 2))] ∧
    (Contexter.exit ⟨[], [[(hSup, .ofEnter 14), (hR2, .ofEnter 16)]]⟩ none).result
      = .ok () := by decide

/-- Claim C3 (amended): during deactivation the pending error evolves by
most-recent-wins — any error raised by a release step replaces whatever
error was pending, including a pending state already cleared by
suppression — and the error propagated to the caller is the one raised by
the last release step that raised, provided no release step after it
returns a truthy suppression value (a later truthy suppression clears the
pending error instead, as the counterexample shows).  In particular, with
R1 registered first raising E1 and R2 registered second raising E2,
deactivation propagates E1. -/
theorem C3_thm (prep : List Handle) (st : List Scope) (s : Scope) (inc : Option Exc)
    (i : Nat) (en : Entry) (e : Exc)
    (hi : (s.reverse)[i]? = some en) (hr : stepRaises en.1 = some e)
    (hafter : ∀ x ∈ (s.reverse).drop (i+1),
        stepRaises x.1 = none ∧ x.1.exitB ≠ some (.ret true)) :
    (∀ p h e2, stepRaises h = some e2 → stepPending p h = some e2) ∧
    (Contexter.exit ⟨prep, st ++ [s]⟩ inc).result = .error e := by
  constructor
  · exact fun p h e2 => stepPending_raise p h e2
  · rw [exit_concat]
    have hfin : (releaseLoop inc s.reverse).2 = some e := by
      rw [releaseLoop_snd]
      exact foldl_last_raise inc s.reverse i en e hi hr hafter
    simp [hfin]

/-- Closed instantiation of `C3_thm` at the claim's own scenario: `hR1`
registered first (exit raises `user 1`), `hR2` second (exit raises
`user 2`); deactivation propagates `user 1`. -/
theorem C3_wit :
    (Contexter.exit ⟨[], [[(hR1, .ofEnter 15), (hR2, .ofEnter 16)]]⟩ none).result
      = .error (.user 1) :=
  (C3_thm [] [] [(hR1, .ofEnter 15), (hR2, .ofEnter 16)] none 1 (hR1, .ofEnter 15)
    (.user 1) (by decide) (by decide) (by decide)).2

/-- Claim C7: if the release step at position `i` of the deactivation
order is a Managed exit returning a truthy suppression value, the pending
error is cleared at that step; if additionally no later release step
raises, every later release step sees no pending error and the
deactivation completes without propagating any error. -/
theorem C7_thm (prep : List Handle) (st : List Scope) (s : Scope) (inc : Option Exc)
    (i : Nat) (en : Entry)
    (hi : (s.reverse)[i]? = some en)
    (hsup : en.1.exitB = some (.ret true))
    (hafter : ∀ x ∈ (s.reverse).drop (i+1), stepRaises x.1 = none) :
    ((s.reverse).take (i+1)).foldl (fun q x => stepPending q x.1) inc = none ∧
    (∀ j, i < j → ((s.reverse).take j).foldl (fun q x => stepPending q x.1) inc = none) ∧
    (Contexter.exit ⟨prep, st ++ [s]⟩ inc).result = .ok () := by
  refine ⟨foldl_take_suppress inc s.reverse i en hi hsup,
    fun j hj => foldl_take_after_suppress inc s.reverse i j en hi hsup hafter hj, ?_⟩
  rw [exit_concat]
  have hlen : i < s.reverse.length := by
    by_contra hc
    rw [List.getElem?_eq_none (by omega)] at hi
    exact Option.noConfusion hi
  have hfin : (releaseLoop inc s.reverse).2 = none := by
    rw [releaseLoop_snd]
    have h4 := foldl_take_after_suppress inc s.reverse i s.reverse.length en hi hsup
      hafter hlen
    rwa [List.take_length] at h4
  simp [hfin]

/-- Closed instantiation of `C7_thm`: a pending body error `user 3` is
suppressed by `hSup` (released first) and the remaining close-only release
does not raise, so deactivation is clean. -/
theorem C7_wit :
    (Contexter.exit ⟨[], [[(hCl, .ofHandle hCl), (hSup, .ofEnter 14)]]⟩
        (some (.user 3))).result = .ok () :=
  (C7_thm [] [] [(hCl, .ofHandle hCl), (hSup, .ofEnter 14)] (some (.user 3)) 0
    (hSup, .ofEnter 14) (by decide) rfl (by decide)).2.2

/-- Python index `-1` on a non-empty list selects the last element. -/
theorem pyIdx_neg_one (n : Nat) : pyIdx (n+1) (-1) = some n := by
  have h1 : ¬(0 ≤ (-1 : Int)) := by norm_num
  have h2 : (0:Int) ≤ ((n+1 : Nat) : Int) + (-1) := by push_cast; omega
  have h3 : (((n+1 : Nat) : Int) + (-1)).toNat = n := by omega
  unfold pyIdx
  rw [if_neg h1, if_pos h2, h3]

/-- Python lookup `xs[-1]` on a non-empty list yields the last element. -/
theorem pyGet_neg_one {α : Type} (l : List α) (x : α) :
    pyGet (l ++ [x]) (-1) = some x := by
  unfold pyGet
  have hlen : (l ++ [x]).length = l.length + 1 := by simp
  rw [hlen, pyIdx_neg_one]
  exact List.getElem?_concat_length l x

/-- Claim C9: in an active manager whose innermost scope holds the values
`[a, b, cv]` in registration order, point lookup at index `0`/`1`/`2`
yields `a`/`b`/`cv`, at `-1` yields `cv`, and slice lookup `[1:]` yields
`[b, cv]`; an out-of-range point index, or a scope index that selects no
existing scope, fails with `IndexError`; and `values` returns all values
of any selected scope in registration order. -/
theorem C9_thm (prep : List Handle) (st : List Scope) (s : Scope) (a b cv : EValue)
    (hvals : s.map (fun en => en.2) = [a, b, cv]) :
    Contexter.value ⟨prep, st ++ [s]⟩ (.point 0) (-1) = .ok (.one a) ∧
    Contexter.value ⟨prep, st ++ [s]⟩ (.point 1) (-1) = .ok (.one b) ∧
    Contexter.value ⟨prep, st ++ [s]⟩ (.point 2) (-1) = .ok (.one cv) ∧
    Contexter.value ⟨prep, st ++ [s]⟩ (.point (-1)) (-1) = .ok (.one cv) ∧
    Contexter.value ⟨prep, st ++ [s]⟩ (.slice (some 1) none) (-1) = .ok (.many [b, cv]) ∧
    (∀ i : Int, pyIdx 3 i = none →
        Contexter.value ⟨prep, st ++ [s]⟩ (.point i) (-1) = .error .indexError) ∧
    (∀ k : Int, pyGet (st ++ [s]) k = none →
        Contexter.value ⟨prep, st ++ [s]⟩ (.point 0) k = .error .indexError ∧
        Contexter.values ⟨prep, st ++ [s]⟩ k = .error .indexError) ∧
    (∀ k : Int, ∀ sk : Scope, pyGet (st ++ [s]) k = some sk →
        Contexter.values ⟨prep, st ++ [s]⟩ k = .ok (sk.map fun en => en.2)) := by
  have hlast : pyGet (st ++ [s]) (-1) = some s := pyGet_neg_one st s
  rcases s with _ | ⟨e1, _ | ⟨e2, _ | ⟨e3, _ | ⟨e4, t⟩⟩⟩⟩ <;> simp at hvals
  obtain ⟨h1, h2, h3⟩ := hvals
  subst h1; subst h2; subst h3
  have p0 : pyIdx 3 0 = some 0 := by decide
  have p1 : pyIdx 3 1 = some 1 := by decide
  have p2 : pyIdx 3 2 = some 2 := by decide
  have pm1 : pyIdx 3 (-1) = some 2 := by decide
  have q1 : sliceBound 3 1 = 1 := by decide
  refine ⟨?_, ?_, ?_, ?_, ?_, ?_, ?_, ?_⟩
  · simp only [Contexter.value, hlast]
    simp [pyGet, p0]
  · simp only [Contexter.value, hlast]
    simp [pyGet, p1]
  · simp only [Contexter.value, hlast]
    simp [pyGet, p2]
  · simp only [Contexter.value, hlast]
    simp [pyGet, pm1]
  · simp only [Contexter.value, hlast]
    simp [pySlice, q1]
  · intro i hi
    simp only [Contexter.value, hlast]
    simp [pyGet, hi]
  · intro k hk
    constructor
    · simp [Contexter.value, hk]
    · simp [Contexter.values, hk]
  · intro k sk hk
    simp [Contexter.values, hk]

/-- Closed instantiation of `C9_thm` at the scope holding values
`[ofEnter 11, ofEnter 12, ofHandle hCl]`, including one out-of-range point
index and one invalid scope index. -/
theorem C9_wit :
    Contexter.value ⟨[], [[(hA, .ofEnter 11), (hB, .ofEnter 12), (hCl, .ofHandle hCl)]]⟩
        (.point 0) (-1) = .ok (.one (.ofEnter 11)) ∧
    Contexter.value ⟨[], [[(hA, .ofEnter 11), (hB, .ofEnter 12), (hCl, .ofHandle hCl)]]⟩
        (.slice (some 1) none) (-1) = .ok (.many [.ofEnter 12, .ofHandle hCl]) ∧
    Contexter.value ⟨[], [[(hA, .ofEnter 11), (hB, .ofEnter 12), (hCl, .ofHandle hCl)]]⟩
        (.point 5) (-1) = .error .indexError ∧
    Contexter.values ⟨[], [[(hA, .ofEnter 11), (hB, .ofEnter 12), (hCl, .ofHandle hCl)]]⟩
        3 = .error .indexError :=
  ⟨(C9_thm [] [] [(hA, .ofEnter 11), (hB, .ofEnter 12), (hCl, .ofHandle hCl)]
      (.ofEnter 11) (.ofEnter 12) (.ofHandle hCl) rfl).1,
   (C9_thm [] [] [(hA, .ofEnter 11), (hB, .ofEnter 12), (hCl, .ofHandle hCl)]
      (.ofEnter 11) (.ofEnter 12) (.ofHandle hCl) rfl).2.2.2.2.1,
   (C9_thm [] [] [(hA, .ofEnter 11), (hB, .ofEnter 12), (hCl, .ofHandle hCl)]
      (.ofEnter 11) (.ofEnter 12) (.ofHandle hCl) rfl).2.2.2.2.2.1 5 (by decide),
   ((C9_thm [] [] [(hA, .ofEnter 11), (hB, .ofEnter 12), (hCl, .ofHandle hCl)]
      (.ofEnter 11) (.ofEnter 12) (.ofHandle hCl) rfl).2.2.2.2.2.2.1 3 (by decide)).2⟩
